import Mathlib

/-!
Shallow embedding of `baseConverter.py` and `stringgen.py` (Python 2) and
proofs about the behaviour their specification claims.

Conventions of the embedding:
* Python strings are `List Char`; characters compare by code point, which is
  exactly how Python 2 compares the one-byte characters these programs use.
* Python exceptions are the `PyErr` error type of an `Except` result.  The
  constructors correspond to the distinct raise sites and messages of the
  source (`AssertionError`, the distinct `ValueError` messages, `IndexError`,
  and divergence of a loop that cannot terminate).
* `random.choice(charSet)` is modelled by an oracle `ks : Nat -> Nat` giving
  the index drawn at each step; a run of the Python program corresponds to an
  oracle whose values are below `charSet.length` whenever the set is nonempty.
* Python floats in the weighted sampler are modelled with exact rationals.
-/

/-- Exceptions raised by the two Python modules, one constructor per distinct
raise site / message. -/
inductive PyErr where
  /-- `AssertionError` (a failed `assert`). -/
  | assertionError : PyErr
  /-- `IndexError` from indexing a sequence out of range. -/
  | indexError : PyErr
  /-- `ValueError` raised by `list.index` when the element is absent. -/
  | notInList : PyErr
  /-- `ValueError: Length does not fall between bytesMin and bytesMax!` -/
  | invalidLength : PyErr
  /-- `ValueError: At maximum allowed string!` -/
  | atUpperBound : PyErr
  /-- `ValueError: At minimum allowed string!` -/
  | atLowerBound : PyErr
  /-- `ValueError: bytesMin and bytesMax must be integers, ...` -/
  | invalidMinMax : PyErr
  /-- `ValueError` raised by `min`/`max` on an empty sequence. -/
  | emptySeq : PyErr
  /-- `ZeroDivisionError`. -/
  | zeroDivision : PyErr
  /-- marker for a loop of the source that does not terminate
  (the encode loop of `convertBase` when `baseTo <= 1` and the value is
  nonzero); the fuel given to the embedding is sufficient for every
  terminating run. -/
  | divergence : PyErr
  deriving Repr, DecidableEq

instance : Std.Antisymm (fun (a b : Char) => a ≤ b) :=
  ⟨fun {_ _} h h2 => le_antisymm h h2⟩

instance {ε α : Type} [DecidableEq ε] [DecidableEq α] : DecidableEq (Except ε α) :=
  fun a b =>
    match a, b with
    | .ok x, .ok y => if h : x = y then .isTrue (by rw [h]) else .isFalse (by simp [h])
    | .error x, .error y => if h : x = y then .isTrue (by rw [h]) else .isFalse (by simp [h])
    | .ok _, .error _ => .isFalse (by simp)
    | .error _, .ok _ => .isFalse (by simp)

/-- Python `min(l)` for a list of characters (`None`-free model:
`none` encodes the `ValueError` on an empty sequence). -/
def pyMin (l : List Char) : Option Char := l.min?

/-- Python `max(l)` for a list of characters. -/
def pyMax (l : List Char) : Option Char := l.max?

/-- Python `list.index`: position of the first occurrence, `none` when the
element is absent (where the source raises `ValueError`). -/
def pyIndexOf (l : List Char) (c : Char) : Option Nat :=
  match l with
  | [] => none
  | x :: xs => if x = c then some 0 else (pyIndexOf xs c).map (· + 1)

/-- The characters Python 2 `str.strip()` removes. -/
def pyIsSpace (c : Char) : Bool :=
  c = ' ' || c = '\t' || c = '\n' || c = '\r' || c = Char.ofNat 11 || c = Char.ofNat 12

/-- Python `str.strip()`: drop leading and trailing whitespace. -/
def pyStrip (s : List Char) : List Char :=
  ((s.dropWhile pyIsSpace).reverse.dropWhile pyIsSpace).reverse

/-! ## baseConverter.py -/

/-- `possibleValues` of `baseConverter.py`: digits then upper-case letters. -/
def possibleValues : List Char := "0123456789ABCDEFGHIJKLMNOPQRSTUVWXYZ".toList

/-- The decode comprehension of `convertBase` (line 57 of the source):
`sum([values.index(s)*(baseFrom**i) for i, s in enumerate(list(str(valueFrom)))])`.
`i` is the forward `enumerate` index, starting at the given accumulator. -/
def convertBaseDecode (values : List Char) (baseFrom : Nat) : List Char → Nat → Except PyErr Nat
  | [], _ => .ok 0
  | c :: cs, i =>
    match pyIndexOf values c with
    | none => .error .notInList
    | some d =>
      match convertBaseDecode values baseFrom cs (i + 1) with
      | .error e => .error e
      | .ok rest => .ok (d * baseFrom ^ i + rest)

/-- The encode loop of `convertBase` (lines 60-62 of the source):
`while tVal: outputValue = values[tVal % baseTo] + outputValue; tVal /= baseTo`.
The first argument is fuel; `t` itself is enough fuel for every `baseTo >= 2`,
and for `baseTo <= 1` with `t > 0` the Python loop never terminates, which the
exhausted fuel reports as `.divergence`. -/
def convertBaseEncode (values : List Char) (baseTo : Nat) : Nat → Nat → Except PyErr (List Char)
  | _, 0 => .ok []
  | 0, _ + 1 => .error .divergence
  | fuel + 1, t + 1 =>
    if baseTo = 0 then .error .zeroDivision
    else
      match values.get? ((t + 1) % baseTo) with
      | none => .error .indexError
      | some c =>
        match convertBaseEncode values baseTo fuel ((t + 1) / baseTo) with
        | .error e => .error e
        | .ok rest => .ok (rest ++ [c])

/-- `convertBase(valueFrom, baseFrom, baseTo, values)` of `baseConverter.py`,
for string input and nonnegative integer bases (the only shapes the program
documents and its CLI can produce).  Faithful details: the assertions on the
bases, `strip`, the negativity test on the first character, the
*unconditional* `valueFrom = valueFrom[1:]` of line 54, the forward-indexed
decode sum, and the encode loop that yields an empty string for value zero. -/
def convertBase (valueFrom : String) (baseFrom baseTo : Nat) (values : List Char) :
    Except PyErr String :=
  if ¬ baseTo ≤ values.length then .error .assertionError
  else if ¬ baseFrom ≤ values.length then .error .assertionError
  else
    match pyStrip valueFrom.toList with
    | [] => .error .indexError
    | c0 :: rest =>
      let negative := c0 = '-'
      match convertBaseDecode values baseFrom rest 0 with
      | .error e => .error e
      | .ok tVal =>
        match convertBaseEncode values baseTo tVal tVal with
        | .error e => .error e
        | .ok out => .ok (String.mk (if negative then '-' :: out else out))

/-- Modelled from the spec (not the source): big-endian decoding, in which the
symbol at reverse-index `i` from the end contributes `digitValue * baseFrom^i`;
used to compare the source decode against the claimed one. -/
def specDecodeBE (values : List Char) (baseFrom : Nat) : List Char → Option Nat
  | [] => some 0
  | c :: cs =>
    match pyIndexOf values c, specDecodeBE values baseFrom cs with
    | some d, some rest => some (d * baseFrom ^ cs.length + rest)
    | _, _ => none

/-! ### Claims C1-C4 -/

/-- C1: the claim says decoding is big-endian on the trimmed, sign-stripped
string.  The code decodes with the forward `enumerate` index instead
(little-endian): `convertBase("-10", 2, 10)` decodes the sign-stripped
string `"10"` to `1` and returns `"-1"`, while the claimed big-endian
decode of `"10"` in base 2 is `2` (output `"-2"`). -/
theorem c1_decode_is_little_endian :
    convertBase "-10" 2 10 possibleValues = .ok "-1" ∧
    specDecodeBE possibleValues 2 ['1', '0'] = some 2 ∧
    ("-1" : String) ≠ "-2" := by
  refine ⟨by decide, by decide, by decide⟩

/-- C2: the claim says the leading `-` is stripped only when present, so that
`ConvertBase("-FF",16,10) = "-" ++ ConvertBase("FF",16,10)`.  Line 54 of the
source strips the first character unconditionally, so `"FF"` decodes as
`"F"`: the code returns `"-255"` and `"-" ++ "15"` respectively. -/
theorem c2_first_char_always_stripped :
    convertBase "-FF" 16 10 possibleValues = .ok "-255" ∧
    convertBase "FF" 16 10 possibleValues = .ok "15" ∧
    ("-255" : String) ≠ "-" ++ "15" := by
  refine ⟨by decide, by decide, by decide⟩

/-- C3: the claimed round-trip `ConvertBase(ConvertBase(v,b1,b2),b2,b1) = v`
fails on the code: for `v = "11"`, `b1 = 2`, `b2 = 10` the inner call yields
`"1"` (first character dropped) and the outer call yields `""`. -/
theorem c3_roundtrip_fails :
    (convertBase "11" 2 10 possibleValues).bind
        (fun v => convertBase v 10 2 possibleValues) = .ok "" ∧
    ("" : String) ≠ "11" := by
  refine ⟨by decide, by decide⟩

/-- C4: the claim (and the spec, which flags the reference behaviour as a
defect) says `ConvertBase("0", b1, b2)` returns the zero symbol; the code
returns the empty string, for any pair of valid bases. -/
theorem c4_zero_gives_empty_string :
    convertBase "0" 10 16 possibleValues = .ok "" ∧
    convertBase "0" 36 2 possibleValues = .ok "" ∧
    convertBase "0" 2 36 possibleValues = .ok "" ∧
    ("" : String) ≠ "0" := by
  refine ⟨by decide, by decide, by decide, by decide⟩

/-! ## stringgen.py -/

/-- `sorted(charSet)`: Python sorts ascending; insertion sort produces the
same (stable, ascending) arrangement. -/
def pySorted (l : List Char) : List Char := l.insertionSort (· ≤ ·)

/-- Python read `l[i]` on a list whose cells hold either a one-character
string (`some c`) or the empty string `''` (`none`), with Python semantics
for negative indices and `IndexError` out of range. -/
def pyGetOptI (l : List (Option Char)) (i : Int) : Except PyErr (Option Char) :=
  let j : Int := if i < 0 then i + l.length else i
  if 0 ≤ j ∧ j < (l.length : Int) then .ok (l.getD j.toNat none) else .error .indexError

/-- Python write `l[i] = x` under the same indexing rules (the sources only
write to indices they have just read, so no failure case is needed). -/
def pySetOptI (l : List (Option Char)) (i : Int) (x : Option Char) : List (Option Char) :=
  let j : Int := if i < 0 then i + l.length else i
  if 0 ≤ j then l.set j.toNat x else l

/-- Python read `l[i]` on a plain character list, with negative-index
aliasing and `IndexError`. -/
def pyGetCI (l : List Char) (i : Int) : Except PyErr Char :=
  let j : Int := if i < 0 then i + l.length else i
  if 0 ≤ j ∧ j < (l.length : Int) then .ok (l.getD j.toNat 'a') else .error .indexError

/-- `"".join(retval)`: empty cells disappear, the rest concatenate. -/
def pyJoin (l : List (Option Char)) : List Char := l.filterMap id

/-- `sortedSet[sortedSet.index(x)+1]` (line 143 of the source): look the cell
value up in the sorted set and take the next element.  `list.index` raises
`ValueError` when the cell holds `''` or a character outside the set;
`sortedSet[...+1]` raises `IndexError` when the index leaves the list
(positive index, so no aliasing). -/
def bumpChar (sortedSet : List Char) (x : Option Char) : Except PyErr Char :=
  match x with
  | none => .error .notInList
  | some c =>
    match pyIndexOf sortedSet c with
    | none => .error .notInList
    | some idx =>
      match sortedSet.get? (idx + 1) with
      | none => .error .indexError
      | some c2 => .ok c2

/-- The carry loop of `NextLexographicalString` (lines 140-149):
`for i in xrange(bytesMax-1, bytesMin-2, -1)`, reading `retval[i]`, comparing
with `max(sortedSet)` (evaluated each iteration, as in the source), bumping
and stopping at the first non-maximum cell, clearing maximum cells and
continuing.  Returns `some` updated cells on success (`success = True`) and
`none` when the scan exhausts (`success = False`).  The first argument is the
number of remaining iterations. -/
def nextLoop (sortedSet : List Char) :
    Nat → Int → List (Option Char) → Except PyErr (Option (List (Option Char)))
  | 0, _, _ => .ok none
  | n + 1, i, retval =>
    match pyGetOptI retval i with
    | .error e => .error e
    | .ok x =>
      match pyMax sortedSet with
      | none => .error .emptySeq
      | some maxC =>
        if x ≠ some maxC then
          match bumpChar sortedSet x with
          | .error e => .error e
          | .ok c2 => .ok (some (pySetOptI retval i (some c2)))
        else
          nextLoop sortedSet n (i - 1) (pySetOptI retval i none)

/-- `NextLexographicalString(s, bytesMin, bytesMax, charSet)` of
`stringgen.py`.  When the length is not `bytesMax` the result is
`s + min(charSet)`; at `bytesMax` the carry loop runs from index
`bytesMax-1` down to `bytesMin-1` inclusive (the `xrange` stop is
`bytesMin-2`), and exhaustion raises `ValueError` (`.atUpperBound`). -/
def NextLexographicalString (s : List Char) (bytesMin bytesMax : Int) (charSet : List Char) :
    Except PyErr (List Char) :=
  let sortedSet := pySorted charSet
  let retval : List (Option Char) := s.map some
  let length : Int := (s.length : Int)
  if length < bytesMin ∨ length > bytesMax then .error .invalidLength
  else if length ≠ bytesMax then
    match pyMin charSet with
    | none => .error .emptySeq
    | some m => .ok (s ++ [m])
  else
    match nextLoop sortedSet (bytesMax - 1 - (bytesMin - 2)).toNat (bytesMax - 1) retval with
    | .error e => .error e
    | .ok none => .error .atUpperBound
    | .ok (some rv) => .ok (pyJoin rv)

/-- The at-lower-bound test of `PrevLexographicalString` (line 177 of the
source): `length == bytesMin and min(charSet)*bytesMin == s`, with Python
short-circuit evaluation, so `min` is only called (and can only raise on an
empty set) when the length equals `bytesMin`. -/
def prevAtMinCheck (s : List Char) (bytesMin : Int) (charSet : List Char) : Except PyErr Bool :=
  if (s.length : Int) = bytesMin then
    match pyMin charSet with
    | none => Except.error PyErr.emptySeq
    | some m => Except.ok (List.replicate bytesMin.toNat m = s : Bool)
  else Except.ok false

/-- `PrevLexographicalString(s, bytesMin, bytesMax, charSet)` of
`stringgen.py`.  Faithful details: the at-minimum test compares
`min(charSet)*bytesMin` with `s` only when the length equals `bytesMin`
(short-circuit `and`); below `bytesMax` the last character is replaced by
`sortedSet[sortedSet.index(c)-1]` -- for the least character the index is
`-1`, which Python aliases to the *last* (maximum) element -- and the string
is padded to `bytesMax` with `max(sortedSet)`; at `bytesMax` the scan body
breaks on both branches, so exactly one position is inspected. -/
def PrevLexographicalString (s : List Char) (bytesMin bytesMax : Int) (charSet : List Char) :
    Except PyErr (List Char) :=
  let sortedSet := pySorted charSet
  let length : Int := (s.length : Int)
  if length < bytesMin ∨ length > bytesMax then .error .invalidLength
  else
    match prevAtMinCheck s bytesMin charSet with
    | .error e => .error e
    | .ok atMin =>
      if atMin then .error .atLowerBound
      else if length ≠ bytesMax then
        match pyGetCI s (length - 1) with
        | .error e => .error e
        | .ok c =>
          match pyIndexOf sortedSet c with
          | none => .error .notInList
          | some idx =>
            match pyGetCI sortedSet ((idx : Int) - 1) with
            | .error e => .error e
            | .ok c2 =>
              match pyMax sortedSet with
              | none => .error .emptySeq
              | some maxC =>
                .ok (s.set (s.length - 1) c2 ++
                     List.replicate (bytesMax - length).toNat maxC)
      else
        match pyGetCI s (bytesMax - 1) with
        | .error e => .error e
        | .ok c =>
          match pyMin sortedSet with
          | none => .error .emptySeq
          | some minC =>
            if c ≠ minC then
              match pyIndexOf sortedSet c with
              | none => .error .notInList
              | some idx =>
                match pyGetCI sortedSet ((idx : Int) - 1) with
                | .error e => .error e
                | .ok c2 => .ok (s.set (s.length - 1) c2)
            else
              .ok s.dropLast

/-- The comprehension `[random.choice(charSet) for i in l]` joined to a
string: one choice per element of `l`, where `ks i` is the index drawn by
`random.choice` at step `i`.  Python raises `IndexError` exactly when the
set is empty, which the model reports whenever the drawn index is out of
range (real draws are always in range for a nonempty set). -/
def pyChoiceList (charSet : List Char) (ks : Nat → Nat) : List Nat → Except PyErr (List Char)
  | [] => .ok []
  | i :: rest =>
    match charSet[ks i]? with
    | none => .error .indexError
    | some c =>
      match pyChoiceList charSet ks rest with
      | .error e => .error e
      | .ok out => .ok (c :: out)

/-- `GenerateRandomString(bytes, charSet)`:
`"".join([random.choice(charSet) for i in xrange(bytes)])`.  `xrange` of a
negative count is empty, so `bytes.toNat` choices are made. -/
def GenerateRandomString (bytes : Int) (charSet : List Char) (ks : Nat → Nat) :
    Except PyErr (List Char) :=
  pyChoiceList charSet ks (List.range bytes.toNat)

/-- `xrange(bytesMin, bytesMax+1)` as a list of integers. -/
def intRange (a b : Int) : List Int :=
  (List.range (b + 1 - a).toNat).map (fun k => a + (k : Int))

/-- The length-selection loop of `GenerateRandomStrings` (lines 94-101):
`cp` accumulates `distFunc(i)/total`; the loop breaks at the first `i` with
`rp <= cp`, leaving `length = i`; `none` means the loop completed without a
break (so the Python variable `length` keeps its initial value `0`). -/
def selectLoop (w : Int → ℚ) (total : ℚ) (rp : ℚ) : List Int → ℚ → Option Int
  | [], _ => none
  | i :: rest, cp =>
    let cp2 := cp + w i / total
    if rp ≤ cp2 then some i else selectLoop w total rp rest cp2

/-- One length selection of the weighted (`distFunc` given) branch of
`GenerateRandomStrings` (lines 84-104), up to the assert: the argument
check, `total`, the accumulation loop, and `if not length: assert False` --
which fires both when no break happened *and* when the selected length is
`0`, since Python treats the integer `0` as false.  Weights are exact
rationals; `rp` is the value drawn by `random.random()`. -/
def GenerateRandomStringsLength (bytesMin bytesMax : Int) (distFunc : Int → ℚ) (rp : ℚ) :
    Except PyErr Int :=
  if bytesMin < 0 ∨ bytesMax < 0 ∨ bytesMax < bytesMin then .error .invalidMinMax
  else
    let total : ℚ := ((intRange bytesMin bytesMax).map distFunc).sum
    if total = 0 then .error .zeroDivision
    else
      match selectLoop distFunc total rp (intRange bytesMin bytesMax) 0 with
      | none => .error .assertionError
      | some L => if L = 0 then .error .assertionError else .ok L

/-! ### Helper lemmas -/

/-- `string.ascii_lowercase`, used by the examples of the spec. -/
def asciiLowercase : List Char := "abcdefghijklmnopqrstuvwxyz".toList

theorem pyMin_eq_some_iff {l : List Char} {a : Char} :
    pyMin l = some a ↔ a ∈ l ∧ ∀ b ∈ l, a ≤ b :=
  List.min?_eq_some_iff le_refl min_choice (fun _ _ _ => le_min_iff)

theorem pyMax_eq_some_iff {l : List Char} {a : Char} :
    pyMax l = some a ↔ a ∈ l ∧ ∀ b ∈ l, b ≤ a :=
  List.max?_eq_some_iff le_refl max_choice (fun _ _ _ => max_le_iff)

theorem pyMin_perm {l1 l2 : List Char} (h : l1.Perm l2) : pyMin l1 = pyMin l2 := by
  cases h1 : pyMin l1 with
  | none =>
    have : l1 = [] := List.min?_eq_none_iff.mp h1
    subst this
    have : l2 = [] := h.symm.eq_nil
    simp [this, pyMin]
  | some a =>
    obtain ⟨hm, hle⟩ := pyMin_eq_some_iff.mp h1
    exact (pyMin_eq_some_iff.mpr ⟨h.mem_iff.mp hm, fun b hb => hle b (h.mem_iff.mpr hb)⟩).symm

theorem pyMax_perm {l1 l2 : List Char} (h : l1.Perm l2) : pyMax l1 = pyMax l2 := by
  cases h1 : pyMax l1 with
  | none =>
    have : l1 = [] := List.max?_eq_none_iff.mp h1
    subst this
    have : l2 = [] := h.symm.eq_nil
    simp [this, pyMax]
  | some a =>
    obtain ⟨hm, hle⟩ := pyMax_eq_some_iff.mp h1
    exact (pyMax_eq_some_iff.mpr ⟨h.mem_iff.mp hm, fun b hb => hle b (h.mem_iff.mpr hb)⟩).symm

theorem pyMin_pySorted (l : List Char) : pyMin (pySorted l) = pyMin l :=
  pyMin_perm (List.perm_insertionSort _ l)

theorem pyMax_pySorted (l : List Char) : pyMax (pySorted l) = pyMax l :=
  pyMax_perm (List.perm_insertionSort _ l)

/-! ### Claim C6 -/

set_option maxRecDepth 100000

/-- C6 (confirmed): below `bytesMax` the successor is always the input with
the minimum alphabet symbol appended; and for the lowercase alphabet with
`bytesMin = 1`, `bytesMax = 2`: `next("a") = "aa"`, `next("az") = "b"`
(carried and shrunk), and `next("zz")` fails with the at-upper-bound
`ValueError`. -/
theorem c6_below_max_appends_min :
    (∀ (s : List Char) (bytesMin bytesMax : Int) (charSet : List Char) (m : Char),
      bytesMin ≤ (s.length : Int) → (s.length : Int) < bytesMax →
      pyMin charSet = some m →
      NextLexographicalString s bytesMin bytesMax charSet = .ok (s ++ [m])) ∧
    NextLexographicalString ['a'] 1 2 asciiLowercase = .ok ['a', 'a'] ∧
    NextLexographicalString ['a', 'z'] 1 2 asciiLowercase = .ok ['b'] ∧
    NextLexographicalString ['z', 'z'] 1 2 asciiLowercase = .error .atUpperBound := by
  refine ⟨?_, by decide, by decide, by decide⟩
  intro s bytesMin bytesMax charSet m h1 h2 hm
  unfold NextLexographicalString
  rw [if_neg (by omega), if_pos (by omega), hm]

/-- Witness for the universally quantified part of the C6 theorem, at
`s = "b"`, `bytesMin = 1`, `bytesMax = 3`, alphabet `{a,b,c}`. -/
theorem c6_below_max_appends_min_witness :
    NextLexographicalString ['b'] 1 3 ['a', 'b', 'c'] = .ok ['b', 'a'] :=
  c6_below_max_appends_min.1 ['b'] 1 3 ['a', 'b', 'c'] 'a'
    (by decide) (by decide) (by decide)

/-! ### Claim C10 -/

/-- C10 (confirmed): at `bytesMax` length, when the last symbol is the
alphabet minimum and the string is not the lower bound, the predecessor is
the string with its last character removed -- with no check of the result
against `bytesMin`, so with `bytesMin = bytesMax` the result leaves the
declared space. -/
theorem c10_prev_at_max_drops_last :
    ∀ (s : List Char) (bytesMin : Int) (charSet : List Char) (minC : Char),
      bytesMin ≤ (s.length : Int) → 1 ≤ s.length →
      pyMin charSet = some minC →
      s.getLast? = some minC →
      (bytesMin = (s.length : Int) → List.replicate s.length minC ≠ s) →
      PrevLexographicalString s bytesMin (s.length : Int) charSet = .ok s.dropLast := by
  intro s bytesMin charSet minC h1 h2 hmin hlast hne
  have hget : pyGetCI s ((s.length : Int) - 1) = .ok minC := by
    simp only [pyGetCI]
    rw [if_neg (show ¬ ((s.length : Int) - 1 < 0) by omega),
        if_pos (show 0 ≤ (s.length : Int) - 1 ∧ (s.length : Int) - 1 < (s.length : Int) by omega)]
    have ht : ((s.length : Int) - 1).toNat = s.length - 1 := by omega
    rw [ht, List.getD_eq_getElem?_getD, ← List.getLast?_eq_getElem?, hlast]
    rfl
  have hcheck : prevAtMinCheck s bytesMin charSet = .ok false := by
    unfold prevAtMinCheck
    by_cases hbm : ((s.length : Int) = bytesMin)
    · rw [if_pos hbm, hmin]
      have ht : bytesMin.toNat = s.length := by omega
      simp only [ht, decide_eq_false (hne hbm.symm)]
    · rw [if_neg hbm]
  simp only [PrevLexographicalString]
  rw [if_neg (show ¬ ((s.length : Int) < bytesMin ∨ (s.length : Int) > (s.length : Int)) by omega)]
  simp only [hcheck, hget, pyMin_pySorted, hmin]
  simp

/-- Witness for C10 at the concrete instance of the claim: alphabet `{a,b}`,
`bytesMin = bytesMax = 2`, input `"ba"`: the result is `"b"`, of length 1,
outside the declared space. -/
theorem c10_prev_at_max_drops_last_witness :
    PrevLexographicalString ['b', 'a'] 2 2 ['a', 'b'] = .ok ['b'] :=
  c10_prev_at_max_drops_last ['b', 'a'] 2 ['a', 'b'] 'a'
    (by decide) (by decide) (by decide) (by decide) (by decide)

/-! ### Claim C8 -/

/-- C8: the claim says the internal invariant error is unreachable for a
well-formed weight function on a valid range `0 <= bytesMin <= bytesMax`.
With `bytesMin = 0`, the constant weight `1` (nonnegative, positive total
`2`) and draw `rp = 0`, the loop selects length `0` -- and the source then
executes `assert False`, because `if not length` treats the selected integer
`0` as "no length selected". -/
theorem c8_assert_reachable_at_length_zero :
    GenerateRandomStringsLength 0 1 (fun _ => 1) 0 = .error .assertionError ∧
    selectLoop (fun _ => 1) (((intRange 0 1).map (fun _ => (1 : ℚ))).sum) 0 (intRange 0 1) 0
      = some 0 ∧
    (0 : ℚ) < ((intRange 0 1).map (fun _ => (1 : ℚ))).sum := by
  have h1 : intRange 0 1 = [0, 1] := by decide
  have hsum : ((intRange 0 1).map (fun _ => (1 : ℚ))).sum = 2 := by
    rw [h1]; norm_num
  have hsel : selectLoop (fun _ => (1 : ℚ)) 2 0 (intRange 0 1) 0 = some 0 := by
    rw [h1]
    unfold selectLoop
    rw [if_pos (show (0 : ℚ) ≤ 0 + 1 / 2 by norm_num)]
  refine ⟨?_, ?_, ?_⟩
  · unfold GenerateRandomStringsLength
    rw [if_neg (by decide)]
    simp only [hsum, hsel]
    norm_num
  · rw [hsum, hsel]
  · rw [hsum]; norm_num

/-! ### Claim C9 -/

/-- C9 counterexample: `GenerateRandomString(-1, ['a'])` does not fail with
any error: `xrange(-1)` is empty, so the result is the empty string. -/
theorem c9_negative_length_returns_empty :
    GenerateRandomString (-1) ['a'] (fun _ => 0) = .ok [] := by decide

theorem pyChoiceList_ok {charSet : List Char} (ks : Nat → Nat)
    (h : ∀ i, ks i < charSet.length) :
    ∀ l : List Nat,
      ∃ out, pyChoiceList charSet ks l = .ok out ∧
        out.length = l.length ∧ ∀ c ∈ out, c ∈ charSet := by
  intro l
  induction l with
  | nil => exact ⟨[], rfl, rfl, by simp⟩
  | cons a l ih =>
    obtain ⟨out, hout, hlen, hmem⟩ := ih
    have hga : charSet[ks a]? = some (charSet.get ⟨ks a, h a⟩) := List.getElem?_eq_getElem (h a)
    refine ⟨charSet.get ⟨ks a, h a⟩ :: out, ?_, by simp [hlen], ?_⟩
    · unfold pyChoiceList
      rw [hga, hout]
    · intro c hc
      rcases List.mem_cons.mp hc with hc | hc
      · rw [hc]; exact List.get_mem charSet _ _
      · exact hmem c hc

/-- C9 amended: for any drawn-index oracle within range (hence a nonempty
alphabet), `GenerateRandomString` never fails; a negative length yields the
empty string (`xrange` of a negative count is empty) rather than an error,
and a nonnegative length yields exactly that many symbols, each a member of
the alphabet. -/
theorem c9_amended_no_failure :
    ∀ (bytes : Int) (charSet : List Char) (ks : Nat → Nat),
      (∀ i, ks i < charSet.length) →
      ∃ out, GenerateRandomString bytes charSet ks = .ok out ∧
        out.length = bytes.toNat ∧ ∀ c ∈ out, c ∈ charSet := by
  intro bytes charSet ks h
  obtain ⟨out, hout, hlen, hmem⟩ := pyChoiceList_ok ks h (List.range bytes.toNat)
  exact ⟨out, hout, by simpa using hlen, hmem⟩

/-- Witness for C9 amended, at `bytes = 2`, alphabet `{a,b}`, oracle
`i % 2`. -/
theorem c9_amended_no_failure_witness :
    ∃ out, GenerateRandomString 2 ['a', 'b'] (fun i => i % 2) = .ok out ∧
      out.length = (2 : Int).toNat ∧ ∀ c ∈ out, c ∈ (['a', 'b'] : List Char) :=
  c9_amended_no_failure 2 ['a', 'b'] (fun i => i % 2)
    (fun i => Nat.mod_lt i (by decide))

/-! ### The carry loop of NextLexographicalString, characterised -/

/-- The cell list of the carry loop at the moment index `j` is about to be
examined: positions `0..j` still hold the characters of `s`, positions above
`j` have been cleared to `''`. -/
def maskAfter (s : List Char) (j : Nat) : List (Option Char) :=
  (s.take (j + 1)).map some ++ List.replicate (s.length - (j + 1)) none

theorem maskAfter_length {s : List Char} {j : Nat} (hj : j < s.length) :
    (maskAfter s j).length = s.length := by
  simp only [maskAfter, List.length_append, List.length_map, List.length_take,
    List.length_replicate]
  omega

theorem maskAfter_full {s : List Char} (h : 1 ≤ s.length) :
    maskAfter s (s.length - 1) = s.map some := by
  have h1 : s.length - 1 + 1 = s.length := by omega
  simp [maskAfter, h1]

theorem pyGetOptI_maskAfter {s : List Char} {j : Nat} (hj : j < s.length) :
    pyGetOptI (maskAfter s j) (j : Int) = .ok (some s[j]) := by
  simp only [pyGetOptI]
  rw [if_neg (show ¬ ((j : Int) < 0) by omega)]
  rw [if_pos (show 0 ≤ (j : Int) ∧ (j : Int) < ((maskAfter s j).length : Int) by
    rw [maskAfter_length hj]; omega)]
  have ht : ((j : Int)).toNat = j := by omega
  rw [ht, List.getD_eq_getElem?_getD, maskAfter, List.getElem?_append]
  rw [if_pos (show j < ((s.take (j + 1)).map some).length by
    simp only [List.length_map, List.length_take]; omega)]
  simp [List.getElem?_take, hj, List.getElem?_eq_getElem hj]

theorem maskAfter_set_core {s : List Char} {j : Nat} (hj : j < s.length) (x : Option Char) :
    pySetOptI (maskAfter s j) (j : Int) x
      = (s.take j).map some ++ x :: List.replicate (s.length - (j + 1)) none := by
  simp only [pySetOptI]
  rw [if_neg (show ¬ ((j : Int) < 0) by omega), if_pos (show (0 : Int) ≤ (j : Int) by omega)]
  have ht : ((j : Int)).toNat = j := by omega
  rw [ht, maskAfter, List.set_append]
  rw [if_pos (show j < ((s.take (j + 1)).map some).length by
    simp only [List.length_map, List.length_take]; omega)]
  have hts : s.take (j + 1) = s.take j ++ [s.get ⟨j, hj⟩] := by
    rw [List.take_succ, List.getElem?_eq_getElem hj]
    rfl
  rw [hts]
  have hlen : ((s.take j).map some).length = j := by
    simp only [List.length_map, List.length_take]; omega
  rw [List.map_append, List.set_append, if_neg (by omega), hlen]
  simp

theorem maskAfter_clear {s : List Char} {j : Nat} (hj : j < s.length) (h1 : 1 ≤ j) :
    pySetOptI (maskAfter s j) (j : Int) none = maskAfter s (j - 1) := by
  rw [maskAfter_set_core hj none, maskAfter]
  have h2 : j - 1 + 1 = j := by omega
  have h3 : s.length - j = (s.length - (j + 1)) + 1 := by omega
  rw [h2, h3, List.replicate_succ]

/-- Characterisation of the carry loop: starting at index `j` with the cells
above `j` cleared and `n` iterations left (so the scan window is positions
`j+1-n .. j`), the loop succeeds exactly when some scanned position holds a
non-maximal character; it bumps the rightmost such position and leaves the
cells to its right cleared. -/
theorem nextLoop_eq (sortedSet : List Char) (maxC : Char) (hmax : pyMax sortedSet = some maxC)
    (s : List Char) :
    ∀ (n j : Nat), n ≤ j + 1 → j < s.length →
      nextLoop sortedSet n (j : Int) (maskAfter s j) =
        match ((s.drop (j + 1 - n)).take n).reverse.dropWhile (fun c => c = maxC) with
        | [] => .ok none
        | b :: rest =>
          match bumpChar sortedSet (some b) with
          | .error e => .error e
          | .ok c2 => .ok (some ((s.take (j + 1 - n + rest.length)).map some ++
              some c2 :: List.replicate (s.length - (j + 1 - n + rest.length) - 1) none)) := by
  intro n
  induction n with
  | zero =>
    intro j hn hj
    simp [nextLoop]
  | succ n ih =>
    intro j hn hj
    have e1 : j + 1 - (n + 1) = j - n := by omega
    have hseg : (s.drop (j - n)).take (n + 1)
        = (s.drop (j - n)).take n ++ [s[j]] := by
      rw [List.take_succ]
      have hg : (s.drop (j - n))[n]? = some s[j] := by
        rw [List.getElem?_drop]
        have e2 : j - n + n = j := by omega
        rw [e2, List.getElem?_eq_getElem hj]
      rw [hg]
      rfl
    unfold nextLoop
    simp only [pyGetOptI_maskAfter hj, hmax]
    by_cases hc : s[j] = maxC
    · rw [if_neg (by simp [hc])]
      rcases Nat.eq_zero_or_pos n with hn0 | hn1
      · subst hn0
        rw [e1, hseg]
        simp [nextLoop, hc]
      · have hj1 : 1 ≤ j := by omega
        rw [maskAfter_clear hj hj1]
        have hji : ((j : Int) - 1) = ((j - 1 : Nat) : Int) := by omega
        rw [hji, ih (j - 1) (by omega) (by omega)]
        have e2 : j - 1 + 1 - n = j - n := by omega
        rw [e1, e2, hseg, List.reverse_append]
        simp only [List.reverse_cons, List.reverse_nil, List.nil_append, List.singleton_append]
        rw [List.dropWhile_cons, if_pos (by simp [hc])]
    · rw [if_pos (by simp [hc])]
      rw [e1, hseg, List.reverse_append]
      simp only [List.reverse_cons, List.reverse_nil, List.nil_append, List.singleton_append]
      rw [List.dropWhile_cons, if_neg (by simp [hc])]
      cases hb : bumpChar sortedSet (some s[j]) with
      | error e => simp [hb]
      | ok c2 =>
        simp only [hb]
        rw [maskAfter_set_core hj (some c2)]
        have e3 : n ⊓ (s.length - (j - n)) = n := Nat.min_eq_left (by omega)
        have e4 : ((s.drop (j - n)).take n).reverse.length = n := by
          simp only [List.length_reverse, List.length_take, List.length_drop]
          exact e3
        rw [e4]
        have e5 : j - n + n = j := by omega
        rw [e5]
        have e6 : s.length - (j + 1) = s.length - j - 1 := by omega
        rw [e6, List.map_take]

theorem filterMap_id_replicate_none (k : Nat) :
    List.filterMap id (List.replicate k (none : Option Char)) = [] := by
  induction k with
  | zero => rfl
  | succ k ih => simp [List.replicate_succ, ih]

theorem pyJoin_mask (xs : List Char) (c : Char) (k : Nat) :
    pyJoin (xs.map some ++ some c :: List.replicate k none) = xs ++ [c] := by
  simp [pyJoin, List.filterMap_append, List.filterMap_cons, filterMap_id_replicate_none,
    List.filterMap_map]

/-- Closed form of the `bytesMax` branch of `NextLexographicalString` with
scan window starting at position `m` (the code scans `bytesMax-1` down to
`bytesMin-1`, so `m = bytesMin - 1`): remove the maximal symbols from the
scanned tail; if nothing is left the scan exhausts (at-upper-bound), else
the rightmost non-maximal scanned symbol is looked up in the sorted set and
replaced by the next element, everything to its right being dropped. -/
def nextLexAtMaxSpec (s : List Char) (m : Nat) (charSet : List Char) :
    Except PyErr (List Char) :=
  match pyMax (pySorted charSet) with
  | none => .error .emptySeq
  | some maxC =>
    match (s.drop m).reverse.dropWhile (fun c => c = maxC) with
    | [] => .error .atUpperBound
    | b :: rest =>
      match bumpChar (pySorted charSet) (some b) with
      | .error e => .error e
      | .ok c2 => .ok (s.take (m + rest.length) ++ [c2])

theorem nextLex_atMax (s : List Char) (bytesMin bytesMax : Nat) (charSet : List Char)
    (h1 : 1 ≤ bytesMin) (h2 : bytesMin ≤ bytesMax) (h3 : s.length = bytesMax) :
    NextLexographicalString s (bytesMin : Int) (bytesMax : Int) charSet
      = nextLexAtMaxSpec s (bytesMin - 1) charSet := by
  subst h3
  simp only [NextLexographicalString]
  rw [if_neg (show ¬ ((s.length : Int) < (bytesMin : Int) ∨ (s.length : Int) > (s.length : Int))
        by omega)]
  rw [if_neg (show ¬ ((s.length : Int) ≠ (s.length : Int)) by omega)]
  rw [show ((s.length : Int) - 1 - ((bytesMin : Int) - 2)).toNat = s.length - bytesMin + 1
        by omega]
  rw [show ((s.length : Int) - 1) = ((s.length - 1 : Nat) : Int) by omega]
  rw [← maskAfter_full (show 1 ≤ s.length by omega)]
  cases hpm : pyMax (pySorted charSet) with
  | none =>
    unfold nextLoop
    simp only [pyGetOptI_maskAfter (show s.length - 1 < s.length by omega), hpm]
    unfold nextLexAtMaxSpec
    rw [hpm]
  | some maxC =>
    rw [nextLoop_eq (pySorted charSet) maxC hpm s (s.length - bytesMin + 1) (s.length - 1)
        (by omega) (by omega)]
    have ea : s.length - 1 + 1 - (s.length - bytesMin + 1) = bytesMin - 1 := by omega
    rw [ea]
    have eb : (s.drop (bytesMin - 1)).take (s.length - bytesMin + 1) = s.drop (bytesMin - 1) := by
      apply List.take_of_length_le
      rw [List.length_drop]; omega
    rw [eb]
    have hrhs : nextLexAtMaxSpec s (bytesMin - 1) charSet
        = match (s.drop (bytesMin - 1)).reverse.dropWhile (fun c => c = maxC) with
          | [] => .error .atUpperBound
          | b :: rest =>
            match bumpChar (pySorted charSet) (some b) with
            | .error e => .error e
            | .ok c2 => .ok (s.take (bytesMin - 1 + rest.length) ++ [c2]) := by
      unfold nextLexAtMaxSpec
      rw [hpm]
    rw [hrhs]
    cases hdw : (s.drop (bytesMin - 1)).reverse.dropWhile (fun c => c = maxC) with
    | nil => rfl
    | cons b rest =>
      cases hb : bumpChar (pySorted charSet) (some b) with
      | error e => simp [hb]
      | ok c2 =>
        simp only [hb]
        rw [pyJoin_mask]

theorem bumpChar_error_ne_upper {ss : List Char} {x : Option Char} {e : PyErr}
    (h : bumpChar ss x = .error e) : e ≠ .atUpperBound := by
  rcases x with _ | c
  · have hx : bumpChar ss none = .error .notInList := rfl
    rw [hx] at h
    injection h with h2
    subst h2
    decide
  · cases hidx : pyIndexOf ss c with
    | none =>
      have hx : bumpChar ss (some c) = .error .notInList := by
        simp only [bumpChar, hidx]
      rw [hx] at h
      injection h with h2
      subst h2
      decide
    | some idx =>
      cases hget : ss.get? (idx + 1) with
      | none =>
        have hx : bumpChar ss (some c) = .error .indexError := by
          simp only [bumpChar, hidx, hget]
        rw [hx] at h
        injection h with h2
        subst h2
        decide
      | some c2 =>
        have hx : bumpChar ss (some c) = .ok c2 := by
          simp only [bumpChar, hidx, hget]
        rw [hx] at h
        exact absurd h (by simp)

/-! ### Claim C5 -/

/-- C5 counterexample: with alphabet `{a,b}` and `bytesMin = bytesMax = 2`,
the input `"ab"` is not the all-maximum string, yet the call fails with the
at-upper-bound error, because the scan stops at index `bytesMin - 1 = 1` and
never examines index 0. -/
theorem c5_counterexample :
    NextLexographicalString ['a', 'b'] 2 2 ['a', 'b'] = .error .atUpperBound ∧
    pyMax ['a', 'b'] = some 'b' ∧
    ¬ (∀ c ∈ (['a', 'b'] : List Char), c = 'b') :=
  ⟨by decide, by decide, by decide⟩

/-- C5 amended: for a length-`bytesMax` input (with `1 <= bytesMin <=
bytesMax` and a nonempty alphabet with maximum `maxC`), the call equals the
closed form that scans only positions `bytesMin - 1 .. bytesMax - 1`; in
particular it fails with at-upper-bound iff every symbol at position
`>= bytesMin - 1` equals the alphabet maximum (not: every symbol of `s`),
and otherwise the rightmost non-maximal scanned symbol is bumped and the
cleared positions to its right are dropped. -/
theorem c5_amended_scan_window (s : List Char) (bytesMin bytesMax : Nat)
    (charSet : List Char) (maxC : Char)
    (h1 : 1 ≤ bytesMin) (h2 : bytesMin ≤ bytesMax) (h3 : s.length = bytesMax)
    (hmax : pyMax charSet = some maxC) :
    NextLexographicalString s (bytesMin : Int) (bytesMax : Int) charSet
      = nextLexAtMaxSpec s (bytesMin - 1) charSet ∧
    (NextLexographicalString s (bytesMin : Int) (bytesMax : Int) charSet
        = .error .atUpperBound ↔ ∀ c ∈ s.drop (bytesMin - 1), c = maxC) := by
  have heq := nextLex_atMax s bytesMin bytesMax charSet h1 h2 h3
  refine ⟨heq, ?_⟩
  rw [heq]
  have hpm : pyMax (pySorted charSet) = some maxC := by
    rw [pyMax_pySorted]; exact hmax
  have hiff : (s.drop (bytesMin - 1)).reverse.dropWhile (fun c => c = maxC) = []
      ↔ ∀ c ∈ s.drop (bytesMin - 1), c = maxC := by
    rw [List.dropWhile_eq_nil_iff]
    constructor
    · intro h c hc
      simpa using h c (List.mem_reverse.mpr hc)
    · intro h c hc
      simpa using h c (List.mem_reverse.mp hc)
  have hrhs : nextLexAtMaxSpec s (bytesMin - 1) charSet
      = match (s.drop (bytesMin - 1)).reverse.dropWhile (fun c => c = maxC) with
        | [] => .error .atUpperBound
        | b :: rest =>
          match bumpChar (pySorted charSet) (some b) with
          | .error e => .error e
          | .ok c2 => .ok (s.take (bytesMin - 1 + rest.length) ++ [c2]) := by
    unfold nextLexAtMaxSpec
    rw [hpm]
  rw [hrhs]
  constructor
  · intro h
    rw [← hiff]
    cases hdw : (s.drop (bytesMin - 1)).reverse.dropWhile (fun c => c = maxC) with
    | nil => rfl
    | cons b rest =>
      rw [hdw] at h
      cases hb : bumpChar (pySorted charSet) (some b) with
      | error e =>
        simp only [hb] at h
        injection h with h2
        exact absurd h2 (bumpChar_error_ne_upper hb)
      | ok c2 =>
        simp only [hb] at h
        exact absurd h (by simp)
  · intro h
    rw [← hiff] at h
    rw [h]

/-- Witness for C5 amended at `s = "az"`, `bytesMin = 1`, `bytesMax = 2`,
lowercase alphabet. -/
theorem c5_amended_scan_window_witness :
    NextLexographicalString ['a', 'z'] ((1 : Nat) : Int) ((2 : Nat) : Int) asciiLowercase
        = nextLexAtMaxSpec ['a', 'z'] (1 - 1) asciiLowercase ∧
    (NextLexographicalString ['a', 'z'] ((1 : Nat) : Int) ((2 : Nat) : Int) asciiLowercase
        = .error .atUpperBound ↔
      ∀ c ∈ (['a', 'z'] : List Char).drop (1 - 1), c = 'z') :=
  c5_amended_scan_window ['a', 'z'] 1 2 asciiLowercase 'z'
    (by decide) (by decide) (by decide) (by decide)

/-! ### Lemmas for claim C7 -/

theorem pyGetCI_nat {l : List Char} {k : Nat} (hk : k < l.length) :
    pyGetCI l (k : Int) = .ok l[k] := by
  simp only [pyGetCI]
  rw [if_neg (show ¬ ((k : Int) < 0) by omega),
      if_pos (show 0 ≤ (k : Int) ∧ (k : Int) < (l.length : Int) by omega)]
  rw [show ((k : Int)).toNat = k by omega, List.getD_eq_getElem?_getD,
      List.getElem?_eq_getElem hk]
  rfl

theorem pyIndexOf_getElem {l : List Char} {c : Char} :
    ∀ {k : Nat}, pyIndexOf l c = some k → l[k]? = some c := by
  induction l with
  | nil => intro k h; simp [pyIndexOf] at h
  | cons x xs ih =>
    intro k h
    simp only [pyIndexOf] at h
    by_cases hx : x = c
    · rw [if_pos hx] at h
      injection h with h2
      subst h2
      simp [hx]
    · rw [if_neg hx] at h
      cases hi : pyIndexOf xs c with
      | none => rw [hi] at h; simp at h
      | some k2 =>
        rw [hi] at h
        simp at h
        subst h
        simpa using ih hi

theorem pyIndexOf_of_nodup {l : List Char} (hnd : l.Nodup) :
    ∀ {k : Nat} (hk : k < l.length), pyIndexOf l l[k] = some k := by
  induction l with
  | nil => intro k hk; simp at hk
  | cons x xs ih =>
    intro k hk
    cases k with
    | zero => simp [pyIndexOf]
    | succ k =>
      have hks : k < xs.length := by simpa using hk
      have hg : (x :: xs)[k + 1] = xs[k] := List.getElem_cons_succ ..
      have hx2 : ¬ (x = xs[k]) := by
        intro hcon
        exact (List.nodup_cons.mp hnd).1 (hcon ▸ List.getElem_mem hks)
      rw [hg]
      simp only [pyIndexOf, if_neg hx2, ih (List.nodup_cons.mp hnd).2 hks]
      rfl

theorem pySorted_strict {l : List Char} (hnd : l.Nodup) :
    (pySorted l).Pairwise (· < ·) := by
  have hs : (pySorted l).Sorted (· ≤ ·) := List.sorted_insertionSort _ l
  have hn : (pySorted l).Nodup := (List.perm_insertionSort _ l).nodup_iff.mpr hnd
  exact (hs.and hn).imp (fun h => lt_of_le_of_ne h.1 h.2)

theorem dropWhile_head_false {p : Char → Bool} :
    ∀ {l : List Char} {b : Char} {rest : List Char},
      l.dropWhile p = b :: rest → p b = false := by
  intro l
  induction l with
  | nil => intro b rest h; simp [List.dropWhile] at h
  | cons x xs ih =>
    intro b rest h
    rw [List.dropWhile_cons] at h
    by_cases hp : p x = true
    · rw [if_pos hp] at h; exact ih h
    · rw [if_neg hp] at h
      injection h with h1 _
      subst h1
      simpa using hp

/-- Decomposition of a string whose tail scan (reverse `dropWhile`) produced
`b :: rest`: the string is its first `m` characters, then `rest` reversed,
then `b`, then a run of characters all satisfying the dropped predicate. -/
theorem dropWhile_rev_decomp {s : List Char} {m : Nat} {p : Char → Bool}
    {b : Char} {rest : List Char}
    (hdw : (s.drop m).reverse.dropWhile p = b :: rest) :
    ∃ w : List Char,
      s = s.take m ++ rest.reverse ++ b :: w ∧
      (∀ c ∈ w, p c = true) ∧ p b = false := by
  refine ⟨((s.drop m).reverse.takeWhile p).reverse, ?_, ?_, dropWhile_head_false hdw⟩
  · have hsplit : (s.drop m).reverse
        = (s.drop m).reverse.takeWhile p ++ (b :: rest) := by
      rw [← hdw, List.takeWhile_append_dropWhile]
    have hdm : s.drop m = rest.reverse ++ b :: ((s.drop m).reverse.takeWhile p).reverse := by
      have := congrArg List.reverse hsplit
      rw [List.reverse_reverse, List.reverse_append] at this
      simpa using this
    calc s = s.take m ++ s.drop m := (List.take_append_drop m s).symm
    _ = s.take m ++ (rest.reverse ++ b :: ((s.drop m).reverse.takeWhile p).reverse) := by
          rw [← hdm]
    _ = s.take m ++ rest.reverse ++ b :: ((s.drop m).reverse.takeWhile p).reverse := by
          rw [List.append_assoc]
  · intro c hc
    exact List.mem_takeWhile_imp (List.mem_reverse.mp hc)

/-- Predecessor of `s ++ [min]` when `s ++ [min]` has length `bytesMax`:
the scan inspects the last position, finds the minimum symbol, removes it
and stops, giving back `s`. -/
theorem prev_of_append_min (s : List Char) (bytesMin bytesMax : Nat) (charSet : List Char)
    (m0 : Char)
    (h1 : 1 ≤ bytesMin) (h2 : bytesMin ≤ s.length) (h3 : s.length + 1 = bytesMax)
    (hm0 : pyMin charSet = some m0) :
    PrevLexographicalString (s ++ [m0]) (bytesMin : Int) (bytesMax : Int) charSet = .ok s := by
  have hL : (s ++ [m0]).length = s.length + 1 := by simp
  have hchk : prevAtMinCheck (s ++ [m0]) (bytesMin : Int) charSet = .ok false := by
    unfold prevAtMinCheck
    rw [if_neg (show ¬ ((((s ++ [m0]).length : Nat) : Int) = (bytesMin : Int)) by
      rw [hL]; push_cast; omega)]
  simp only [PrevLexographicalString]
  rw [if_neg (show ¬ ((((s ++ [m0]).length : Nat) : Int) < (bytesMin : Int) ∨
      (((s ++ [m0]).length : Nat) : Int) > (bytesMax : Int)) by rw [hL]; push_cast; omega)]
  simp only [hchk]
  rw [if_neg (show ¬ ((((s ++ [m0]).length : Nat) : Int) ≠ (bytesMax : Int)) by
    rw [hL]; push_cast; omega)]
  rw [show ((bytesMax : Int) - 1) = ((s.length : Nat) : Int) by omega]
  rw [pyGetCI_nat (show s.length < (s ++ [m0]).length by simp)]
  simp only [List.getElem_concat_length]
  rw [pyMin_pySorted, hm0]
  simp [List.dropLast_concat]

theorem replicate_getLast {n : Nat} (hn : 1 ≤ n) (a : Char) :
    (List.replicate n a).getLast? = some a := by
  rw [List.getLast?_eq_getElem?]
  rw [List.getElem?_eq_getElem (show (List.replicate n a).length - 1
    < (List.replicate n a).length by simp; omega)]
  simp

/-- Predecessor of the carry result `A ++ [c2]`, where `c2` is the sorted-set
element one past `b` (position `idx`): the code looks `c2` up, steps one
position back to `b`, and -- when the string is shorter than `bytesMax` --
pads with the maximum symbol; both branches reconstruct `A ++ b :: w` for
the run `w` of maximal symbols the forward carry dropped. -/
theorem prev_of_bumped (charSet : List Char) (hnd : charSet.Nodup)
    (A w : List Char) (b c2 maxC : Char) (idx : Nat) (bytesMin bytesMax : Nat)
    (hss_idx : pyIndexOf (pySorted charSet) b = some idx)
    (hss_get : (pySorted charSet).get? (idx + 1) = some c2)
    (hmax : pyMax (pySorted charSet) = some maxC)
    (hw : ∀ c ∈ w, c = maxC)
    (h1 : 1 ≤ bytesMin) (hA1 : bytesMin ≤ A.length + 1)
    (hlen : A.length + 1 + w.length = bytesMax) :
    PrevLexographicalString (A ++ [c2]) (bytesMin : Int) (bytesMax : Int) charSet
      = .ok (A ++ b :: w) := by
  have hnds : (pySorted charSet).Nodup := (List.perm_insertionSort _ charSet).nodup_iff.mpr hnd
  have hltp : (pySorted charSet).Pairwise (· < ·) := pySorted_strict hnd
  have hlt2 : idx + 1 < (pySorted charSet).length := by
    by_contra hcon
    rw [List.get?_eq_getElem?, List.getElem?_eq_none (by omega)] at hss_get
    exact absurd hss_get (by simp)
  have hidx_lt : idx < (pySorted charSet).length := by omega
  have hc2_eq : (pySorted charSet)[idx + 1] = c2 := by
    rw [List.get?_eq_getElem?, List.getElem?_eq_getElem hlt2] at hss_get
    exact Option.some.inj hss_get
  have hb_eq : (pySorted charSet)[idx] = b := by
    have h := pyIndexOf_getElem hss_idx
    rw [List.getElem?_eq_getElem hidx_lt] at h
    exact Option.some.inj h
  have h0lt : 0 < (pySorted charSet).length := by omega
  obtain ⟨minC, hminC⟩ : ∃ m, pyMin (pySorted charSet) = some m := by
    cases hm : pyMin (pySorted charSet) with
    | none =>
      have hnil := List.min?_eq_none_iff.mp hm
      rw [hnil] at h0lt
      exact absurd h0lt (by simp)
    | some m => exact ⟨m, rfl⟩
  have hminC_le : ∀ x ∈ (pySorted charSet), minC ≤ x := (pyMin_eq_some_iff.mp hminC).2
  have hc2_ne : c2 ≠ minC := by
    have hlt01 : (pySorted charSet)[0] < (pySorted charSet)[idx + 1] :=
      List.pairwise_iff_getElem.mp hltp 0 (idx + 1) h0lt hlt2 (by omega)
    have hle : minC ≤ (pySorted charSet)[0] := hminC_le _ (List.getElem_mem h0lt)
    intro hcon
    rw [hc2_eq, hcon] at hlt01
    exact absurd hlt01 (not_lt.mpr hle)
  have hidx_c2 : pyIndexOf (pySorted charSet) c2 = some (idx + 1) := by
    have h := pyIndexOf_of_nodup hnds hlt2
    rwa [hc2_eq] at h
  have htl : (A ++ [c2]).length = A.length + 1 := by simp
  have hget1 : pyGetCI (A ++ [c2]) ((A.length : Nat) : Int) = .ok c2 := by
    rw [pyGetCI_nat (show A.length < (A ++ [c2]).length by simp)]
    simp
  have hget2 : pyGetCI (pySorted charSet) ((idx : Nat) : Int) = .ok b := by
    rw [pyGetCI_nat hidx_lt, hb_eq]
  have hset : (A ++ [c2]).set ((A ++ [c2]).length - 1) b = A ++ [b] := by
    rw [htl]
    rw [List.set_append, if_neg (by omega)]
    simp
  have hchk : prevAtMinCheck (A ++ [c2]) (bytesMin : Int) charSet = .ok false := by
    unfold prevAtMinCheck
    by_cases hq : (((A ++ [c2]).length : Nat) : Int) = ((bytesMin : Nat) : Int)
    · rw [if_pos hq]
      rw [show pyMin charSet = some minC by rw [← pyMin_pySorted]; exact hminC]
      have hne : List.replicate ((bytesMin : Nat) : Int).toNat minC ≠ A ++ [c2] := by
        intro hcon
        have hlast := congrArg List.getLast? hcon
        rw [List.getLast?_concat,
            show (((bytesMin : Nat) : Int)).toNat = bytesMin by omega,
            replicate_getLast (by omega) minC] at hlast
        exact hc2_ne (Option.some.inj hlast).symm
      simp only [decide_eq_false hne]
    · rw [if_neg hq]
  simp only [PrevLexographicalString]
  rw [if_neg (show ¬ ((((A ++ [c2]).length : Nat) : Int) < ((bytesMin : Nat) : Int) ∨
      (((A ++ [c2]).length : Nat) : Int) > ((bytesMax : Nat) : Int)) by
    rw [htl]; push_cast; omega)]
  simp only [hchk]
  by_cases hB : A.length + 1 = bytesMax
  · have hw0 : w = [] := by
      have hwl : w.length = 0 := by omega
      exact List.length_eq_zero.mp hwl
    subst hw0
    have hcond : ¬ ((((A ++ [c2]).length : Nat) : Int) ≠ ((bytesMax : Nat) : Int)) := by
      rw [htl]; push_cast; omega
    have hidxm : ((bytesMax : Nat) : Int) - 1 = ((A.length : Nat) : Int) := by
      push_cast; omega
    simp only [hcond, if_false, Bool.false_eq_true, hidxm, hget1, hminC, hc2_ne,
      ne_eq, not_false_eq_true, if_true, hidx_c2,
      show (((idx + 1 : Nat) : Int) - 1) = ((idx : Nat) : Int) by push_cast; omega,
      hget2, hset]
  · have hB2 : A.length + 1 < bytesMax := by omega
    have hcond : (((A ++ [c2]).length : Nat) : Int) ≠ ((bytesMax : Nat) : Int) := by
      rw [htl]; push_cast; omega
    have hidxm : (((A ++ [c2]).length : Nat) : Int) - 1 = ((A.length : Nat) : Int) := by
      rw [htl]; push_cast; omega
    have hcount : (((bytesMax : Nat) : Int) - (((A ++ [c2]).length : Nat) : Int)).toNat
        = w.length := by
      rw [htl]; omega
    have hwrep : List.replicate w.length maxC = w := (List.eq_replicate_of_mem hw).symm
    simp only [hcond, if_true, Bool.false_eq_true, if_false, hidxm, hget1, hidx_c2,
      show (((idx + 1 : Nat) : Int) - 1) = ((idx : Nat) : Int) by push_cast; omega,
      hget2, hmax, hset, hcount, hwrep]
    simp
    intro hcon
    exfalso
    have hcon2 : A.length + 1 = bytesMax := by exact_mod_cast hcon
    omega

/-! ### Claim C7 -/

/-- C7 counterexample: alphabet `{a,b,c}`, `bytesMin = 1`, `bytesMax = 3`,
`s = "b"` -- a non-boundary string (not the space minimum `"a"`, not the
maximum `"ccc"`), whose successor is the plain append `"ba"` (not a
carry/shrink case).  The predecessor of `"ba"` is `"bcc"`, not `"b"`: the
roll-back wraps the trailing minimum symbol to the maximum (Python index
`-1`) and pads, so local invertibility fails outside the excepted cases. -/
theorem c7_counterexample :
    NextLexographicalString ['b'] 1 3 ['a', 'b', 'c'] = .ok ['b', 'a'] ∧
    PrevLexographicalString ['b', 'a'] 1 3 ['a', 'b', 'c'] = .ok ['b', 'c', 'c'] ∧
    (['b', 'c', 'c'] : List Char) ≠ ['b'] ∧
    (['b'] : List Char) ≠ ['a'] ∧
    (['b'] : List Char) ≠ ['c', 'c', 'c'] :=
  ⟨by decide, by decide, by decide, by decide, by decide⟩

/-- C7 amended: local invertibility does hold on the code for every string
within one of `bytesMax`: whenever `NextLexographicalString` succeeds on `s`
with `bytesMax - 1 <= len(s) <= bytesMax` (distinct alphabet symbols,
`1 <= bytesMin <= len(s)`), applying `PrevLexographicalString` to the result
returns `s` -- including the carry/shrink cases.  (For
`len(s) < bytesMax - 1` the round trip instead pads with maximum symbols,
as the counterexample shows.) -/
theorem c7_amended_roundtrip (s t : List Char) (bytesMin bytesMax : Nat)
    (charSet : List Char)
    (hnd : charSet.Nodup)
    (h1 : 1 ≤ bytesMin) (h2 : bytesMin ≤ s.length) (h3 : s.length ≤ bytesMax)
    (h4 : bytesMax ≤ s.length + 1)
    (hNext : NextLexographicalString s (bytesMin : Int) (bytesMax : Int) charSet = .ok t) :
    PrevLexographicalString t (bytesMin : Int) (bytesMax : Int) charSet = .ok s := by
  by_cases hcase : s.length = bytesMax
  · have heq := nextLex_atMax s bytesMin bytesMax charSet h1 (by omega) hcase
    rw [heq] at hNext
    cases hps : pyMax (pySorted charSet) with
    | none =>
      unfold nextLexAtMaxSpec at hNext
      rw [hps] at hNext
      exact absurd hNext (by simp)
    | some maxC =>
      have hrhs : nextLexAtMaxSpec s (bytesMin - 1) charSet
          = match (s.drop (bytesMin - 1)).reverse.dropWhile (fun c => c = maxC) with
            | [] => .error .atUpperBound
            | b :: rest =>
              match bumpChar (pySorted charSet) (some b) with
              | .error e => .error e
              | .ok c2 => .ok (s.take (bytesMin - 1 + rest.length) ++ [c2]) := by
        unfold nextLexAtMaxSpec
        rw [hps]
      rw [hrhs] at hNext
      cases hdw : (s.drop (bytesMin - 1)).reverse.dropWhile (fun c => c = maxC) with
      | nil =>
        rw [hdw] at hNext
        exact absurd hNext (by simp)
      | cons b rest =>
        rw [hdw] at hNext
        cases hb : bumpChar (pySorted charSet) (some b) with
        | error e =>
          simp only [hb] at hNext
          exact absurd hNext (by simp)
        | ok c2 =>
          simp only [hb] at hNext
          have ht : t = s.take (bytesMin - 1 + rest.length) ++ [c2] := by
            injection hNext with h5
            exact h5.symm
          subst ht
          obtain ⟨w, hs_eq, hw, _⟩ := dropWhile_rev_decomp hdw
          obtain ⟨idx, hidx, hget⟩ :
              ∃ idx, pyIndexOf (pySorted charSet) b = some idx ∧
                (pySorted charSet).get? (idx + 1) = some c2 := by
            rcases hpi : pyIndexOf (pySorted charSet) b with _ | idx
            · have : bumpChar (pySorted charSet) (some b) = .error .notInList := by
                simp only [bumpChar, hpi]
              rw [this] at hb
              exact absurd hb (by simp)
            · rcases hg2 : (pySorted charSet).get? (idx + 1) with _ | c3
              · have : bumpChar (pySorted charSet) (some b) = .error .indexError := by
                  simp only [bumpChar, hpi, hg2]
                rw [this] at hb
                exact absurd hb (by simp)
              · have hokc : bumpChar (pySorted charSet) (some b) = .ok c3 := by
                  simp only [bumpChar, hpi, hg2]
                rw [hokc] at hb
                have : c3 = c2 := by injection hb
                subst this
                exact ⟨idx, rfl, hg2⟩
          have htake_m : (s.take (bytesMin - 1)).length = bytesMin - 1 := by
            simp only [List.length_take]
            omega
          have hA : s.take (bytesMin - 1 + rest.length)
              = s.take (bytesMin - 1) ++ rest.reverse := by
            conv_lhs => rw [hs_eq]
            apply List.take_left'
            simp [htake_m]
          rw [hA]
          have hww : ∀ c ∈ w, c = maxC := by
            intro c hc
            simpa using hw c hc
          have hlenw : (s.take (bytesMin - 1) ++ rest.reverse).length + 1 + w.length
              = bytesMax := by
            have := congrArg List.length hs_eq
            simp only [List.length_append, List.length_cons, List.length_reverse,
              htake_m] at this ⊢
            omega
          have hres := prev_of_bumped charSet hnd (s.take (bytesMin - 1) ++ rest.reverse)
            w b c2 maxC idx bytesMin bytesMax hidx hget hps hww h1
            (by simp [htake_m]; omega) hlenw
          rw [hres]
          rw [← hs_eq]
  · have hmaxb : s.length + 1 = bytesMax := by omega
    simp only [NextLexographicalString] at hNext
    rw [if_neg (show ¬ (((s.length : Nat) : Int) < ((bytesMin : Nat) : Int) ∨
        ((s.length : Nat) : Int) > ((bytesMax : Nat) : Int)) by push_cast; omega)] at hNext
    rw [if_pos (show ((s.length : Nat) : Int) ≠ ((bytesMax : Nat) : Int) by
        push_cast; omega)] at hNext
    cases hm0 : pyMin charSet with
    | none =>
      rw [hm0] at hNext
      exact absurd hNext (by simp)
    | some m0 =>
      simp only [hm0] at hNext
      have ht : t = s ++ [m0] := by
        injection hNext with h5
        exact h5.symm
      subst ht
      exact prev_of_append_min s bytesMin bytesMax charSet m0 h1 h2 hmaxb hm0

/-- Witness for C7 amended: alphabet `{a,b}`, `bytesMin = 1`, `bytesMax = 2`,
`s = "ba"` (at `bytesMax`): the successor is `"bb"` and its predecessor is
`"ba"` again. -/
theorem c7_amended_roundtrip_witness :
    PrevLexographicalString ['b', 'b'] ((1 : Nat) : Int) ((2 : Nat) : Int) ['a', 'b']
      = .ok ['b', 'a'] :=
  c7_amended_roundtrip ['b', 'a'] ['b', 'b'] 1 2 ['a', 'b']
    (by decide) (by decide) (by decide) (by decide) (by decide) (by decide)
